import Mathlib

/-!
Verification of `snark-verifier/src/loader/evm/util.rs`.

We shallowly embed the module's pure computations:
* the field-element / `U256` codec (`fe_to_u256`, `u256_to_fe`, `modulus`),
* `encode_calldata`,
* `estimate_gas` (with `usize` arithmetic modelled as wrapping `Nat`
  arithmetic modulo `2 ^ 64`),
* `MemoryChunk`,
* `split_by_ascii_whitespace` and the output-processing stage of
  `compile_yul`.

Bytes are `Nat`s below `256`; 256-bit words are `Nat`s below `2 ^ 256`.
A prime field `F` with `Repr = [u8; 32]` is modelled by `Fin p` for a
parameter `p` (the field's characteristic), following the spec's contract
for the collaborator type: canonical 32-byte little-endian representation,
value space `[0, modulus)`.
-/

/-- Value of a little-endian byte list, least significant byte first
(the reading `U256::from_le_bytes` performs). -/
def fromLEBytes : List Nat → Nat
  | [] => 0
  | b :: bs => b + 256 * fromLEBytes bs

/-- The `k`-byte little-endian representation of `n` (mod `256 ^ k`), as
produced by `to_le_bytes::<k>` / the canonical `to_repr` of the field. -/
def natToLEBytes : Nat → Nat → List Nat
  | 0, _ => []
  | k + 1, n => n % 256 :: natToLEBytes k (n / 256)

/-- The `k`-byte big-endian representation of `n`, most significant byte
first.  Stated from the spec's words ("emitted big-endian"); compared with
the source's reversed little-endian bytes. -/
def natToBEBytes : Nat → Nat → List Nat
  | 0, _ => []
  | k + 1, n => natToBEBytes k (n / 256) ++ [n % 256]

/-- Modelled from the spec: the canonical 32-byte little-endian
representation (`PrimeField::to_repr`, `Repr = [u8; 32]`) of a field
element of the prime field of characteristic `p`; the `ff` crate's fields
are little-endian (see the comment on `fe_to_u256`). -/
def to_repr (p : Nat) (e : Fin p) : List Nat := natToLEBytes 32 e.val

/-- Modelled from the spec: `PrimeField::from_repr` decodes a canonical
little-endian representation, failing on values outside `[0, modulus)`. -/
def from_repr (p : Nat) (bs : List Nat) : Option (Fin p) :=
  if h : fromLEBytes bs < p then some ⟨fromLEBytes bs, h⟩ else none

/-- Modelled from the spec: the value `-F::ONE`, i.e. `p - 1` in the field
(also correct for `p = 1`, where `-1 = 0`). -/
def negOneVal (p : Nat) : Nat := (p - 1) % p

/-- `fe_to_u256`: `U256::from_le_bytes(f.to_repr())`. -/
def fe_to_u256 (p : Nat) (e : Fin p) : Nat := fromLEBytes (to_repr p e)

/-- `modulus`: `U256::from_le_bytes((-F::ONE).to_repr()) + U256::from(1)`,
with the `U256` addition wrapping modulo `2 ^ 256`. -/
def modulus (p : Nat) : Nat :=
  (fromLEBytes (natToLEBytes 32 (negOneVal p)) + 1) % 2 ^ 256

/-- `u256_to_fe`: reduce modulo `modulus::<F>()` (the `U256` remainder
panics when the divisor is zero, hence the guard), then decode the
little-endian bytes with `F::from_repr` and unwrap; `none` models a
panic. -/
def u256_to_fe (p : Nat) (w : Nat) : Option (Fin p) :=
  if modulus p = 0 then none
  else from_repr p (natToLEBytes 32 (w % modulus p))

/-- `encode_calldata`: the flattened instances, each as its reversed
canonical representation, then the proof bytes. -/
def encode_calldata (p : Nat) (instances : List (List (Fin p))) (proof : List Nat) :
    List Nat :=
  (instances.flatten.flatMap fun value => (to_repr p value).reverse) ++ proof

/-- Stated from the spec's words for the calldata layout: each flattened
instance value emitted as its 32-byte big-endian encoding, then the proof
bytes verbatim. -/
def encode_calldata_spec (p : Nat) (instances : List (List (Fin p))) (proof : List Nat) :
    List Nat :=
  ((instances.flatten.map fun value => natToBEBytes 32 value.val).flatten) ++ proof

/-! ### `usize` arithmetic and the gas estimator -/

/-- The number of values of `usize` (64-bit). -/
def USIZE : Nat := 2 ^ 64

/-- Wrapping `usize` addition. -/
def uadd (a b : Nat) : Nat := (a + b) % USIZE

/-- Wrapping `usize` multiplication. -/
def umul (a b : Nat) : Nat := (a * b) % USIZE

/-- Wrapping `usize` subtraction (for `a, b < USIZE`). -/
def usub (a b : Nat) : Nat := (a + USIZE - b) % USIZE

/-- Models `(n as f64 * 15.25).ceil() as usize`: the exact ceiling of
`n * 61 / 4`.  `15.25 = 61/4` is exactly representable, so the `f64`
computation is exact whenever `n * 61 < 2 ^ 53`, which covers every input
considered in the theorems below. -/
def ceilMul15_25 (n : Nat) : Nat := (n * 61 + 3) / 4

/-- Modelled from the spec: the `CostSummary` record (`crate::cost::Cost`
lies outside the sources given); field names follow their uses inside
`estimate_gas`. -/
structure Cost where
  num_commitment : Nat
  num_evaluation : Nat
  num_instance : Nat
  num_msm : Nat
  num_pairing : Nat
deriving DecidableEq

/-- `estimate_gas`, with every `usize` operation wrapping. -/
def estimate_gas (cost : Cost) : Nat :=
  let proof_size :=
    uadd (umul cost.num_commitment 64) (umul (uadd cost.num_evaluation cost.num_instance) 32)
  let intrinsic_cost := 21000
  let calldata_cost := ceilMul15_25 proof_size
  let ec_operation_cost :=
    uadd (uadd 45100 (umul cost.num_pairing 34000)) (umul (usub cost.num_msm 2) 6350)
  uadd intrinsic_cost (uadd calldata_cost ec_operation_cost)

/-! ### `MemoryChunk` -/

/-- `MemoryChunk { ptr, len }`. -/
structure MemoryChunk where
  ptr : Nat
  len : Nat
deriving DecidableEq

/-- `MemoryChunk::new(ptr)`. -/
def MemoryChunk.new (ptr : Nat) : MemoryChunk := ⟨ptr, 0⟩

/-- `MemoryChunk::end(&self)` (`end` is a Lean keyword, hence the name);
`usize` addition wraps. -/
def MemoryChunk.endAddr (c : MemoryChunk) : Nat := uadd c.ptr c.len

/-- `MemoryChunk::reset(&mut self, ptr)`. -/
def MemoryChunk.reset (_c : MemoryChunk) (ptr : Nat) : MemoryChunk := ⟨ptr, 0⟩

/-- `MemoryChunk::extend(&mut self, size)`; `usize` addition wraps. -/
def MemoryChunk.extend (c : MemoryChunk) (size : Nat) : MemoryChunk :=
  ⟨c.ptr, uadd c.len size⟩

/-! ### Whitespace splitting and `compile_yul` output processing -/

/-- `u8::is_ascii_whitespace`: space, horizontal tab, line feed, form feed
or carriage return (vertical tab `0x0B` is not included). -/
def isAsciiWhitespace (b : Nat) : Bool :=
  b == 32 || b == 9 || b == 10 || b == 12 || b == 13

/-- A byte that does not end a token. -/
def notWs (b : Nat) : Bool := ! isAsciiWhitespace b

/-- The loop of `split_by_ascii_whitespace`: `idx` is the index of the
head of `rem` inside `bytes`, `split` the tokens pushed so far, `start`
the `Option<usize>` state; tokens are the slices `bytes[s..idx]`.  The
final flush of `start` is the `if let Some(last)` after the loop. -/
def splitGo (bytes : List Nat) :
    List Nat → Nat → List (List Nat) → Option Nat → List (List Nat)
  | [], _, split, start =>
    match start with
    | some last => split ++ [bytes.drop last]
    | none => split
  | byte :: rem, idx, split, start =>
    if isAsciiWhitespace byte then
      match start with
      | some s => splitGo bytes rem (idx + 1) (split ++ [(bytes.drop s).take (idx - s)]) none
      | none => splitGo bytes rem (idx + 1) split none
    else
      match start with
      | none => splitGo bytes rem (idx + 1) split (some idx)
      | some s => splitGo bytes rem (idx + 1) split (some s)

/-- `split_by_ascii_whitespace`. -/
def split_by_ascii_whitespace (bytes : List Nat) : List (List Nat) :=
  splitGo bytes bytes 0 [] none

/-- Stated from the spec's words: the maximal runs of non-whitespace
bytes, in input order (each token is a maximal `takeWhile` run). -/
def splitSpec : List Nat → List (List Nat)
  | [] => []
  | b :: rem =>
    if isAsciiWhitespace b then splitSpec rem
    else (b :: rem.takeWhile notWs) :: splitSpec (rem.dropWhile notWs)
termination_by l => l.length
decreasing_by
  · simp only [List.length_cons]
    omega
  · simp only [List.length_cons]
    exact Nat.lt_succ_of_le (List.Sublist.length_le (List.dropWhile_sublist _))

/-- One hexadecimal digit, as `hex::decode` accepts it. -/
def hexDigit (b : Nat) : Option Nat :=
  if 48 ≤ b ∧ b ≤ 57 then some (b - 48)
  else if 97 ≤ b ∧ b ≤ 102 then some (b - 87)
  else if 65 ≤ b ∧ b ≤ 70 then some (b - 55)
  else none

/-- `hex::decode`: pairs of hex digits to bytes; fails on odd length or a
non-hex byte. -/
def hexDecode : List Nat → Option (List Nat)
  | [] => some []
  | [_] => none
  | a :: b :: rem =>
    match hexDigit a, hexDigit b, hexDecode rem with
    | some hi, some lo, some tail => some ((hi * 16 + lo) :: tail)
    | _, _, _ => none

/-- The part of `compile_yul` downstream of the subprocess, as a function
of the captured standard output: take the last whitespace-delimited
token (`unwrap` panics when there is none), `assert!` it is non-empty,
hex-decode it (`unwrap` panics on invalid hex); `none` models a panic. -/
def compile_yul_on_output (output : List Nat) : Option (List Nat) :=
  match (split_by_ascii_whitespace output).getLast? with
  | none => none
  | some binary => if binary.isEmpty then none else hexDecode binary

/-! ### Byte-level lemmas -/

theorem fromLEBytes_natToLEBytes (k n : Nat) :
    fromLEBytes (natToLEBytes k n) = n % 256 ^ k := by
  induction k generalizing n with
  | zero => simp [natToLEBytes, fromLEBytes, Nat.mod_one]
  | succ k ih =>
    rw [natToLEBytes, fromLEBytes, ih, pow_succ', Nat.mod_mul]

theorem natToLEBytes_length (k n : Nat) : (natToLEBytes k n).length = k := by
  induction k generalizing n with
  | zero => rfl
  | succ k ih => simp [natToLEBytes, ih]

theorem natToLEBytes_reverse (k n : Nat) :
    (natToLEBytes k n).reverse = natToBEBytes k n := by
  induction k generalizing n with
  | zero => rfl
  | succ k ih => simp [natToLEBytes, natToBEBytes, ih]

theorem pow256_32 : (256 : Nat) ^ 32 = 2 ^ 256 := by norm_num

/-! ### Codec lemmas -/

theorem fe_to_u256_eq (p : Nat) (hp : p ≤ 2 ^ 256) (e : Fin p) :
    fe_to_u256 p e = e.val := by
  rw [fe_to_u256, to_repr, fromLEBytes_natToLEBytes, pow256_32]
  exact Nat.mod_eq_of_lt (lt_of_lt_of_le e.isLt hp)

theorem modulus_eq (p : Nat) (hp0 : 0 < p) (hp : p < 2 ^ 256) : modulus p = p := by
  have h1 : p - 1 < p := Nat.sub_lt hp0 one_pos
  rw [modulus, negOneVal, fromLEBytes_natToLEBytes, pow256_32, Nat.mod_eq_of_lt h1,
    Nat.mod_eq_of_lt (h1.trans hp), Nat.sub_add_cancel hp0, Nat.mod_eq_of_lt hp]

theorem u256_to_fe_eq (p : Nat) (hp0 : 0 < p) (hp : p < 2 ^ 256) (w : Nat) :
    u256_to_fe p w = some ⟨w % p, Nat.mod_lt w hp0⟩ := by
  have hlt : w % p < p := Nat.mod_lt w hp0
  have hpne : ¬ (p = 0) := by omega
  simp only [u256_to_fe, modulus_eq p hp0 hp, if_neg hpne, from_repr,
    fromLEBytes_natToLEBytes, pow256_32, Nat.mod_eq_of_lt (hlt.trans hp), dif_pos hlt]

/-- Claim C1: for every field element `e` of a prime field with canonical
32-byte little-endian representation (characteristic `p` with
`0 < p < 2 ^ 256`), `u256_to_fe (fe_to_u256 e) = e`. -/
theorem c1_round_trip (p : Nat) (hp0 : 0 < p) (hp : p < 2 ^ 256) (e : Fin p) :
    u256_to_fe p (fe_to_u256 p e) = some e := by
  rw [fe_to_u256_eq p (le_of_lt hp) e, u256_to_fe_eq p hp0 hp]
  exact congrArg some (Fin.ext (Nat.mod_eq_of_lt e.isLt))

/-- Witness for C1 at `p = 7`, `e = 3`. -/
theorem c1_round_trip_witness :
    u256_to_fe 7 (fe_to_u256 7 (3 : Fin 7)) = some (3 : Fin 7) :=
  c1_round_trip 7 (by norm_num) (by norm_num) 3

/-- Claim C2: for every 256-bit word `w`,
`fe_to_u256 (u256_to_fe w) = w % modulus`, where the modulus is computed
as `fe_to_u256 (-1) + 1`. -/
theorem c2_reduction (p : Nat) (hp0 : 0 < p) (hp : p < 2 ^ 256) (w : Nat)
    (_hw : w < 2 ^ 256) :
    (u256_to_fe p w).map (fe_to_u256 p) = some (w % modulus p) := by
  rw [u256_to_fe_eq p hp0 hp w, Option.map_some', fe_to_u256_eq p (le_of_lt hp),
    modulus_eq p hp0 hp]

/-- Witness for C2 at `p = 7`, `w = 10`. -/
theorem c2_reduction_witness :
    (u256_to_fe 7 10).map (fe_to_u256 7) = some (10 % modulus 7) :=
  c2_reduction 7 (by norm_num) (by norm_num) 10 (by norm_num)

/-- Claim C7: for every field element `e`, `fe_to_u256 e < modulus`. -/
theorem c7_modulus_bound (p : Nat) (hp0 : 0 < p) (hp : p < 2 ^ 256) (e : Fin p) :
    fe_to_u256 p e < modulus p := by
  rw [fe_to_u256_eq p (le_of_lt hp), modulus_eq p hp0 hp]
  exact e.isLt

/-- Witness for C7 at `p = 7`, `e = 3`. -/
theorem c7_modulus_bound_witness : fe_to_u256 7 (3 : Fin 7) < modulus 7 :=
  c7_modulus_bound 7 (by norm_num) (by norm_num) 3

/-! ### Calldata encoding -/

theorem length_flatMap_repr_reverse (p : Nat) (l : List (Fin p)) :
    (l.flatMap fun value => (to_repr p value).reverse).length = 32 * l.length := by
  induction l with
  | nil => rfl
  | cons a t ih =>
    rw [List.flatMap_cons, List.length_append, ih, List.length_reverse, to_repr,
      natToLEBytes_length, List.length_cons]
    ring

/-- Claim C3: `encode_calldata` is exactly the in-order concatenation of
each flattened instance value's reversed (hence big-endian) canonical
32-byte representation followed by the proof bytes verbatim, and its
length is `32 * (total instance-value count) + len(proof)`. -/
theorem c3_encode_calldata (p : Nat) (instances : List (List (Fin p)))
    (proof : List Nat) :
    encode_calldata p instances proof = encode_calldata_spec p instances proof ∧
    (encode_calldata p instances proof).length =
      32 * instances.flatten.length + proof.length := by
  constructor
  · have hfun : (fun value : Fin p => (to_repr p value).reverse) =
        fun value : Fin p => natToBEBytes 32 value.val := by
      funext value
      rw [to_repr, natToLEBytes_reverse]
    rw [encode_calldata, encode_calldata_spec, hfun, List.flatMap_def]
  · rw [encode_calldata, List.length_append, length_flatMap_repr_reverse]

/-! ### Gas estimation -/

/-- Claim C4: for every cost summary with `num_msm ≥ 2` (counters bounded
so that the `usize` arithmetic does not wrap and the `f64` product is
exact), `estimate_gas` is
`21000 + ceil(proof_size * 15.25) + 45100 + 34000 * num_pairing
 + 6350 * (num_msm - 2)`, the ceiling written as `(proof_size * 61 + 3) / 4`. -/
theorem c4_estimate_gas (c : Cost)
    (hc : c.num_commitment ≤ 2 ^ 32) (he : c.num_evaluation ≤ 2 ^ 32)
    (hi : c.num_instance ≤ 2 ^ 32) (hm : c.num_msm ≤ 2 ^ 32)
    (hm2 : 2 ≤ c.num_msm) (hp : c.num_pairing ≤ 2 ^ 32) :
    estimate_gas c =
      21000 +
        ((c.num_commitment * 64 + (c.num_evaluation + c.num_instance) * 32) * 61 + 3) / 4 +
        (45100 + 34000 * c.num_pairing + 6350 * (c.num_msm - 2)) := by
  have hN : USIZE = 18446744073709551616 := by rw [USIZE]; norm_num
  have h32 : (2 : Nat) ^ 32 = 4294967296 := by norm_num
  rw [h32] at hc he hi hm hp
  have hps : uadd (umul c.num_commitment 64) (umul (uadd c.num_evaluation c.num_instance) 32) =
      c.num_commitment * 64 + (c.num_evaluation + c.num_instance) * 32 := by
    simp only [uadd, umul, hN]
    omega
  have hec : uadd (uadd 45100 (umul c.num_pairing 34000)) (umul (usub c.num_msm 2) 6350) =
      45100 + 34000 * c.num_pairing + 6350 * (c.num_msm - 2) := by
    simp only [uadd, umul, usub, hN]
    omega
  simp only [estimate_gas]
  rw [hps, hec]
  simp only [ceilMul15_25, uadd, hN]
  omega

/-- Witness for C4 at `num_commitment = 2`, `num_evaluation = 3`,
`num_instance = 1`, `num_msm = 2`, `num_pairing = 1`. -/
theorem c4_estimate_gas_witness :
    estimate_gas ⟨2, 3, 1, 2, 1⟩ =
      21000 + ((2 * 64 + (3 + 1) * 32) * 61 + 3) / 4 + (45100 + 34000 * 1 + 6350 * (2 - 2)) :=
  c4_estimate_gas ⟨2, 3, 1, 2, 1⟩ (by norm_num) (by norm_num) (by norm_num)
    (by norm_num) (by norm_num) (by norm_num)

/-- Counterexample to claim C5: on
`num_commitment = 2, num_evaluation = 3, num_instance = 1, num_msm = 2,
num_pairing = 1` the code returns `104004`, not the claimed `103517`
(the claimed intermediate `proofSize = 224` is also wrong: the formula
`2 * 64 + (3 + 1) * 32` gives `256`). -/
theorem c5_counterexample :
    estimate_gas ⟨2, 3, 1, 2, 1⟩ = 104004 ∧ (104004 : Nat) ≠ 103517 := by
  decide

/-- Claim C5 as amended: on the example cost summary the intermediate
values are `proof_size = 256`, `calldata_cost = 3904`,
`ec_operation_cost = 79100`, and the total is `104004`. -/
theorem c5_amended :
    uadd (umul 2 64) (umul (uadd 3 1) 32) = 256 ∧
    ceilMul15_25 256 = 3904 ∧
    uadd (uadd 45100 (umul 1 34000)) (umul (usub 2 2) 6350) = 79100 ∧
    estimate_gas ⟨2, 3, 1, 2, 1⟩ = 21000 + 3904 + 79100 := by
  decide

/-- Counterexample to claim C10: at
`num_commitment = num_evaluation = num_instance = num_msm = num_pairing = 0`
the code returns `53400`, which is exactly the value of the formula with a
signed `num_msm - 2` term — not astronomically larger than it. -/
theorem c10_counterexample :
    estimate_gas ⟨0, 0, 0, 0, 0⟩ = 53400 ∧
    (21000 + ((0 * 64 + (0 + 0) * 32) * 61 + 3) / 4 +
        (45100 + 34000 * 0 + 6350 * ((0 : Int) - 2))) = 53400 := by
  decide

/-- Claim C10 as amended: for `num_msm < 2` (other counters bounded), the
subtraction `num_msm - 2` does wrap modulo `2 ^ 64`, but the subsequent
wrapping multiplication and additions cancel the wrap, so `estimate_gas`
returns exactly the value of the formula with a signed `num_msm - 2`
term (not an astronomically larger value; a checked build would instead
abort at the subtraction). -/
theorem c10_amended (c : Cost) (hm : c.num_msm < 2)
    (hc : c.num_commitment ≤ 2 ^ 32) (he : c.num_evaluation ≤ 2 ^ 32)
    (hi : c.num_instance ≤ 2 ^ 32) (hp : c.num_pairing ≤ 2 ^ 32) :
    (estimate_gas c : Int) =
      21000 +
        ((((c.num_commitment * 64 + (c.num_evaluation + c.num_instance) * 32) * 61 + 3) / 4
            : Nat) : Int) +
        (45100 + 34000 * (c.num_pairing : Int) + 6350 * ((c.num_msm : Int) - 2)) := by
  have hN : USIZE = 18446744073709551616 := by rw [USIZE]; norm_num
  have h32 : (2 : Nat) ^ 32 = 4294967296 := by norm_num
  rw [h32] at hc he hi hp
  have hps : uadd (umul c.num_commitment 64) (umul (uadd c.num_evaluation c.num_instance) 32) =
      c.num_commitment * 64 + (c.num_evaluation + c.num_instance) * 32 := by
    simp only [uadd, umul, hN]
    omega
  have hec : uadd (uadd 45100 (umul c.num_pairing 34000)) (umul (usub c.num_msm 2) 6350) =
      32400 + 34000 * c.num_pairing + 6350 * c.num_msm := by
    simp only [uadd, umul, usub, hN]
    omega
  simp only [estimate_gas]
  rw [hps, hec]
  simp only [ceilMul15_25, uadd, hN]
  omega

/-- Witness for the amended C10 at the all-zero cost summary. -/
theorem c10_amended_witness :
    (estimate_gas ⟨0, 0, 0, 0, 0⟩ : Int) =
      21000 + ((((0 * 64 + (0 + 0) * 32) * 61 + 3) / 4 : Nat) : Int) +
        (45100 + 34000 * ((0 : Nat) : Int) + 6350 * (((0 : Nat) : Int) - 2)) :=
  c10_amended ⟨0, 0, 0, 0, 0⟩ (by norm_num) (by norm_num) (by norm_num)
    (by norm_num) (by norm_num)

/-! ### Memory tracker -/

/-- Claim C9: after `new(100)`, `end() = 100`; after then `extend(50)`,
`end() = 150`; after then `reset(10)`, `len() = 0` and `end() = 10`. -/
theorem c9_memory_chunk :
    (MemoryChunk.new 100).endAddr = 100 ∧
    ((MemoryChunk.new 100).extend 50).endAddr = 150 ∧
    (((MemoryChunk.new 100).extend 50).reset 10).len = 0 ∧
    (((MemoryChunk.new 100).extend 50).reset 10).endAddr = 10 := by
  decide

/-! ### Whitespace splitting -/

theorem splitSpec_nil : splitSpec [] = [] := by
  rw [splitSpec.eq_def]

theorem splitSpec_cons (b : Nat) (rem : List Nat) :
    splitSpec (b :: rem) =
      if isAsciiWhitespace b then splitSpec rem
      else (b :: rem.takeWhile notWs) :: splitSpec (rem.dropWhile notWs) := by
  rw [splitSpec.eq_def]

theorem splitGo_spec (bytes : List Nat) :
    ∀ (rem : List Nat) (idx : Nat) (split : List (List Nat)),
      rem = bytes.drop idx →
        (splitGo bytes rem idx split none = split ++ splitSpec rem) ∧
        (∀ s, s ≤ idx →
          splitGo bytes rem idx split (some s) =
            split ++ ((bytes.drop s).take (idx - s) ++ rem.takeWhile notWs)
              :: splitSpec (rem.dropWhile notWs)) := by
  intro rem
  induction rem with
  | nil =>
    intro idx split h
    have hlen : bytes.length ≤ idx := by
      have hl := congrArg List.length h
      rw [List.length_nil, List.length_drop] at hl
      omega
    refine ⟨by simp [splitGo, splitSpec], ?_⟩
    intro s hs
    have htake : (bytes.drop s).take (idx - s) = bytes.drop s :=
      List.take_of_length_le (by rw [List.length_drop]; omega)
    simp [splitGo, splitSpec, htake]
  | cons byte rest ih =>
    intro idx split h
    have hrest : rest = bytes.drop (idx + 1) := by
      rw [← List.tail_drop, ← h]
      rfl
    have hbyte : bytes[idx]? = some byte := by
      have h0 : (bytes.drop idx)[0]? = some byte := by rw [← h]; simp
      rwa [List.getElem?_drop, Nat.add_zero] at h0
    cases hws : isAsciiWhitespace byte with
    | true =>
      have hnw : notWs byte = false := by simp [notWs, hws]
      refine ⟨?_, ?_⟩
      · rw [splitGo]
        simp only [hws, if_true]
        rw [(ih (idx + 1) split hrest).1, splitSpec_cons]
        simp only [hws, if_true]
      · intro s hs
        rw [splitGo]
        simp only [hws, if_true]
        rw [(ih (idx + 1) (split ++ [(bytes.drop s).take (idx - s)]) hrest).1,
          List.takeWhile_cons, List.dropWhile_cons]
        simp only [hnw, Bool.false_eq_true, if_false, List.append_nil, splitSpec_cons, hws,
          if_true, List.append_assoc, List.singleton_append]
    | false =>
      have hnw : notWs byte = true := by simp [notWs, hws]
      refine ⟨?_, ?_⟩
      · rw [splitGo]
        simp only [hws, Bool.false_eq_true, if_false]
        rw [(ih (idx + 1) split hrest).2 idx (Nat.le_succ idx), splitSpec_cons]
        simp only [hws, Bool.false_eq_true, if_false]
        have h1 : (bytes.drop idx).take (idx + 1 - idx) = [byte] := by
          rw [← h, Nat.add_sub_cancel_left]
          rfl
        rw [h1]
        rfl
      · intro s hs
        rw [splitGo]
        simp only [hws, Bool.false_eq_true, if_false]
        rw [(ih (idx + 1) split hrest).2 s (Nat.le_succ_of_le hs)]
        have h1 : (bytes.drop s).take (idx + 1 - s) =
            (bytes.drop s).take (idx - s) ++ [byte] := by
          have h2 : idx + 1 - s = (idx - s) + 1 := by omega
          rw [h2, List.take_succ, List.getElem?_drop]
          have h3 : s + (idx - s) = idx := by omega
          rw [h3, hbyte]
          rfl
        rw [h1, List.takeWhile_cons, hnw, List.dropWhile_cons, hnw]
        simp

theorem split_eq_splitSpec (bytes : List Nat) :
    split_by_ascii_whitespace bytes = splitSpec bytes := by
  have h := (splitGo_spec bytes bytes 0 [] (by simp)).1
  rw [split_by_ascii_whitespace, h, List.nil_append]

theorem splitSpec_ne_nil (n : Nat) :
    ∀ l : List Nat, l.length ≤ n → ∀ t ∈ splitSpec l, t ≠ [] := by
  induction n with
  | zero =>
    intro l hl t ht
    rw [List.length_eq_zero.mp (Nat.le_zero.mp hl), splitSpec_nil] at ht
    exact absurd ht (List.not_mem_nil t)
  | succ n ih =>
    intro l hl t ht
    cases l with
    | nil =>
      rw [splitSpec_nil] at ht
      exact absurd ht (List.not_mem_nil t)
    | cons b rem =>
      rw [splitSpec_cons] at ht
      rw [List.length_cons] at hl
      cases hws : isAsciiWhitespace b with
      | true =>
        simp only [hws, if_true] at ht
        exact ih rem (by omega) t ht
      | false =>
        rw [hws] at ht
        simp only [Bool.false_eq_true, if_false, List.mem_cons] at ht
        rcases ht with rfl | ht
        · simp
        · exact ih (rem.dropWhile notWs)
            (le_trans (List.Sublist.length_le (List.dropWhile_sublist _)) (by omega)) t ht

/-- Counterexample to claim C8: `u8::is_ascii_whitespace` does not treat
vertical tab (`0x0B`) as whitespace, so the input `[0x41, 0x0B, 0x42]`
stays a single token instead of splitting into `[[0x41], [0x42]]` as the
claim's whitespace set predicts. -/
theorem c8_counterexample :
    split_by_ascii_whitespace [65, 11, 66] = [[65, 11, 66]] ∧
    split_by_ascii_whitespace [65, 11, 66] ≠ [[65], [66]] := by
  decide

/-- Claim C8 as amended: `split_by_ascii_whitespace` returns exactly the
maximal runs of non-whitespace bytes — splitting on runs of space, tab,
newline, carriage return and form feed, but not vertical tab — as
non-empty tokens in input order; in particular `" \x01 \x02   \x03"`
splits into `["\x01", "\x02", "\x03"]` and an input with no whitespace
yields a single token equal to the whole input. -/
theorem c8_split (bytes : List Nat) :
    split_by_ascii_whitespace bytes = splitSpec bytes ∧
    (∀ t ∈ split_by_ascii_whitespace bytes, t ≠ []) ∧
    split_by_ascii_whitespace [32, 1, 32, 2, 32, 32, 32, 3] = [[1], [2], [3]] ∧
    split_by_ascii_whitespace [49, 50, 51, 52, 53, 54, 55, 56, 57, 97, 98, 99] =
      [[49, 50, 51, 52, 53, 54, 55, 56, 57, 97, 98, 99]] := by
  refine ⟨split_eq_splitSpec bytes, ?_, by decide, by decide⟩
  intro t ht
  rw [split_eq_splitSpec bytes] at ht
  exact splitSpec_ne_nil bytes.length bytes (le_refl _) t ht

/-- Witness for the amended C8 at the input `" A"`. -/
theorem c8_split_witness :
    split_by_ascii_whitespace [32, 65] = splitSpec [32, 65] ∧ ([65] : List Nat) ≠ [] :=
  ⟨(c8_split [32, 65]).1, (c8_split [32, 65]).2.1 [65] (by decide)⟩

/-! ### `compile_yul` output processing -/

theorem hexDecode_cons_cons_ne_nil (a b : Nat) (r : List Nat) (bs : List Nat)
    (h : hexDecode (a :: b :: r) = some bs) : bs ≠ [] := by
  rw [hexDecode] at h
  split at h
  · cases h
    simp
  · exact Option.noConfusion h

/-- Claim C6: `compile_yul` fails (returns no bytecode) whenever the
captured compiler output has no whitespace-delimited tokens, or the last
token is empty, or the last token is not valid hexadecimal; and for no
compiler output does it return a zero-length byte sequence. -/
theorem c6_compile_fail (output : List Nat) :
    (split_by_ascii_whitespace output = [] → compile_yul_on_output output = none) ∧
    (∀ t, (split_by_ascii_whitespace output).getLast? = some t →
      (t = [] ∨ hexDecode t = none) → compile_yul_on_output output = none) ∧
    (∀ bs, compile_yul_on_output output = some bs → bs ≠ []) := by
  refine ⟨?_, ?_, ?_⟩
  · intro h
    rw [compile_yul_on_output, h]
    rfl
  · intro t ht hbad
    rw [compile_yul_on_output, ht]
    rcases hbad with rfl | hdec
    · rfl
    · cases t with
      | nil => rfl
      | cons a r =>
        dsimp only
        simp [hdec]
  · intro bs hbs
    rw [compile_yul_on_output] at hbs
    rcases hlast : (split_by_ascii_whitespace output).getLast? with _ | binary
    · rw [hlast] at hbs
      exact Option.noConfusion hbs
    · rw [hlast] at hbs
      cases binary with
      | nil => exact Option.noConfusion hbs
      | cons a r =>
        dsimp only at hbs
        simp only [List.isEmpty_cons, Bool.false_eq_true, if_false] at hbs
        cases r with
        | nil => exact Option.noConfusion hbs
        | cons b rr => exact hexDecode_cons_cons_ne_nil a b rr bs hbs

/-- Witness for C6: empty output, a non-hex last token, and a decoded
non-empty result. -/
theorem c6_compile_fail_witness :
    compile_yul_on_output [] = none ∧
    compile_yul_on_output [120] = none ∧
    ([18] : List Nat) ≠ [] :=
  ⟨(c6_compile_fail []).1 (by decide),
   (c6_compile_fail [120]).2.1 [120] (by decide) (Or.inr (by decide)),
   (c6_compile_fail [49, 50]).2.2 [18] (by decide)⟩
